import Mathlib

/-!
Verification of the dynamic load-balancing simulator.

The C sources (`load_balancer.c` and `load_balancer_interactive.c`) are
shallowly embedded here: the array-backed binary min-heap over
(serverId, load) pairs, the server registry, the rebalancing engine, the
interactive graph's validated `addEdge`, and the interactive yes/no prompt.
C `float` loads are modelled as exact rationals (`ℚ`); array cells are lists
with explicit default-padded indexing (`List.getD`), matching the live
prefix `arr[0..size)` of the C arrays.
-/

set_option maxHeartbeats 1600000

namespace LoadBalancer

/-! ### Definitions (shallow embedding of the C sources) -/

/-- Heap entry: `(serverId, load)` pair (`HeapNode` in the C source). -/
structure HeapNode where
  serverId : Nat
  load : ℚ
deriving DecidableEq

/-- Default used only for out-of-range indexing (never reached under the
    in-bounds hypotheses of the theorems below). -/
def dNode : HeapNode := ⟨0, 0⟩

/-- The min-heap: `arr` is the live prefix `arr[0..size)` of the C array,
    `capacity` its fixed allocation size. -/
structure MinHeap where
  arr : List HeapNode
  capacity : Nat
deriving DecidableEq

/-- Load stored at heap index `i`. -/
def ld (l : List HeapNode) (i : Nat) : ℚ := (l.getD i dNode).load

/-- `swap(&arr[i], &arr[j])` from the C source. -/
def swapL (l : List HeapNode) (i j : Nat) : List HeapNode :=
  let a := l.getD i dNode
  let b := l.getD j dNode
  (l.set i b).set j a

/-- `heapifyUp`: sift the entry at `index` up while strictly smaller than
    its parent at `(index - 1) / 2`. -/
def heapifyUp (l : List HeapNode) (index : Nat) : List HeapNode :=
  if index = 0 then l
  else
    let p := (index - 1) / 2
    if ld l index < ld l p then heapifyUp (swapL l index p) p else l
termination_by index
decreasing_by
  omega

/-- Index of the smallest of `arr[i]` and its existing children
    `2i+1`, `2i+2` — the `smallest` computation inside C `heapifyDown`. -/
def childMin (l : List HeapNode) (i : Nat) : Nat :=
  let n := l.length
  let leftChild := 2 * i + 1
  let rightChild := 2 * i + 2
  let s1 := if leftChild < n ∧ ld l leftChild < ld l i then leftChild else i
  if rightChild < n ∧ ld l rightChild < ld l s1 then rightChild else s1

/-- `heapifyDown`: sift the entry at `index` down, swapping with the
    smaller existing child until neither child is smaller. -/
def heapifyDown (l : List HeapNode) (i : Nat) : List HeapNode :=
  let s := childMin l i
  if s = i then l else heapifyDown (swapL l i s) s
termination_by l.length - i
decreasing_by
  have hcases : childMin l i = i ∨ (i < childMin l i ∧ childMin l i < l.length) := by
    simp only [childMin]
    split_ifs <;> omega
  rcases hcases with h | h
  · simp_all
  · simp only [swapL, List.length_set]
    omega

/-- `insertHeap`: no-op past capacity, else append at `arr[size]` and sift up. -/
def insertHeap (h : MinHeap) (serverId : Nat) (load : ℚ) : MinHeap :=
  if h.arr.length ≥ h.capacity then h
  else { h with arr := heapifyUp (h.arr ++ [⟨serverId, load⟩]) h.arr.length }

/-- `extractMin`: return `arr[0]`, move `arr[size-1]` to the root, shrink,
    and sift the root down.  The C source reads `arr[0]` unguarded on an
    empty heap (a documented precondition violation); the embedding returns
    `none` there. -/
def extractMin (h : MinHeap) : Option (HeapNode × MinHeap) :=
  if h.arr.isEmpty then none
  else
    let min := h.arr.getD 0 dNode
    let l' := (h.arr.set 0 (h.arr.getD (h.arr.length - 1) dNode)).dropLast
    some (min, { h with arr := if 0 < l'.length then heapifyDown l' 0 else l' })

/-- The linear search inside C `updateHeap`: first index whose entry has
    the given `serverId`. -/
def findServerIdx : List HeapNode → Nat → Option Nat
  | [], _ => none
  | a :: rest, sid =>
    if a.serverId = sid then some 0 else (findServerIdx rest sid).map (· + 1)

/-- `updateHeap`: locate the entry by server id (no-op when absent), store
    the new load, then sift up if now smaller than the parent, else sift
    down. -/
def updateHeap (h : MinHeap) (serverId : Nat) (newLoad : ℚ) : MinHeap :=
  match findServerIdx h.arr serverId with
  | none => h
  | some index =>
    let l := h.arr.set index ⟨(h.arr.getD index dNode).serverId, newLoad⟩
    { h with
      arr :=
        if 0 < index ∧ ld l index < ld l ((index - 1) / 2) then heapifyUp l index
        else heapifyDown l index }

/-- The min-heap ordering invariant of the C array: every non-root live
    index is at least its parent. -/
def IsHeap (l : List HeapNode) : Prop :=
  ∀ i, 0 < i → i < l.length → ld l ((i - 1) / 2) ≤ ld l i

/-- `Server`: id, fixed capacity, mutable current load. -/
structure Server where
  id : Nat
  capacity : ℚ
  currentLoad : ℚ
deriving DecidableEq

/-- Default used only for out-of-range indexing. -/
def dServer : Server := ⟨0, 0, 0⟩

/-- Current load of `servers[i]`. -/
def loadAt (ss : List Server) (i : Nat) : ℚ := (ss.getD i dServer).currentLoad

/-- `getLoadPercentage`: `currentLoad / capacity * 100`. -/
def getLoadPercentage (s : Server) : ℚ := s.currentLoad / s.capacity * 100

/-- Load percentage of `servers[i]`. -/
def pctAt (ss : List Server) (i : Nat) : ℚ := getLoadPercentage (ss.getD i dServer)

/-- `calculateAverageLoad`: total current load divided by the server count. -/
def calculateAverageLoad (ss : List Server) : ℚ :=
  (ss.map Server.currentLoad).sum / ss.length

/-- The scan loop of `findMostLoadedServer`, from index `i` with running
    best index and maximum load. -/
def fmlGo (ss : List Server) (i best : Nat) (maxLoad : ℚ) : Nat :=
  if h : i < ss.length then
    if loadAt ss i > maxLoad then fmlGo ss (i + 1) i (loadAt ss i)
    else fmlGo ss (i + 1) best maxLoad
  else best
termination_by ss.length - i

/-- `findMostLoadedServer`: first index with the strictly greatest load. -/
def findMostLoadedServer (ss : List Server) : Nat := fmlGo ss 1 0 (loadAt ss 0)

/-- The scan loop of `findLeastLoadedServer`. -/
def fllGo (ss : List Server) (i best : Nat) (minLoad : ℚ) : Nat :=
  if h : i < ss.length then
    if loadAt ss i < minLoad then fllGo ss (i + 1) i (loadAt ss i)
    else fllGo ss (i + 1) best minLoad
  else best
termination_by ss.length - i

/-- `findLeastLoadedServer`: first index with the strictly least load. -/
def findLeastLoadedServer (ss : List Server) : Nat := fllGo ss 1 0 (loadAt ss 0)

/-- `servers[i].currentLoad = f (servers[i].currentLoad)`. -/
def modifyLoad (ss : List Server) (i : Nat) (f : ℚ → ℚ) : List Server :=
  ss.set i ⟨(ss.getD i dServer).id, (ss.getD i dServer).capacity, f (loadAt ss i)⟩

/-- The imbalance computed at the head of `rebalanceLoads`: load percentage
    of the server found by `findMostLoadedServer` minus that of the server
    found by `findLeastLoadedServer` (both found by absolute load). -/
def imbalanceOf (ss : List Server) : ℚ :=
  pctAt ss (findMostLoadedServer ss) - pctAt ss (findLeastLoadedServer ss)

/-- `rebalanceLoads`: when the imbalance strictly exceeds the threshold,
    migrate `(mostLoaded.currentLoad - averageLoad) * 0.5` from the
    most-loaded to the least-loaded server and push both new loads into the
    heap; otherwise leave everything unchanged. -/
def rebalanceLoads (ss : List Server) (threshold : ℚ) (heap : MinHeap) :
    List Server × MinHeap :=
  let avgLoad := calculateAverageLoad ss
  let mostLoadedIdx := findMostLoadedServer ss
  let leastLoadedIdx := findLeastLoadedServer ss
  if imbalanceOf ss > threshold then
    let migrationAmount := (loadAt ss mostLoadedIdx - avgLoad) * (1 / 2)
    let ss1 := modifyLoad ss mostLoadedIdx (fun x => x - migrationAmount)
    let ss2 := modifyLoad ss1 leastLoadedIdx (fun x => x + migrationAmount)
    let h1 := updateHeap heap mostLoadedIdx (loadAt ss2 mostLoadedIdx)
    let h2 := updateHeap h1 leastLoadedIdx (loadAt ss2 leastLoadedIdx)
    (ss2, h2)
  else (ss, heap)

/-- One task assignment (body of the simulation loops in both drivers):
    extract the minimum-load server, add the task load to it, reinsert it
    with the new load. -/
def assignTask (ss : List Server) (heap : MinHeap) (taskLoad : ℚ) :
    List Server × MinHeap :=
  match extractMin heap with
  | none => (ss, heap)
  | some (minServer, h1) =>
    let ss1 := modifyLoad ss minServer.serverId (fun x => x + taskLoad)
    let newLoad := loadAt ss1 minServer.serverId
    (ss1, insertHeap h1 minServer.serverId newLoad)

/-- The sequential assignment loop (`runInteractiveSimulation` case 2 /
    `simulateTaskAssignment`): assign each task in order, rebalancing after
    every `interval`-th task; `assigned` counts tasks assigned so far. -/
def runTasks (ss : List Server) (heap : MinHeap) (tasks : List ℚ)
    (interval : Nat) (threshold : ℚ) (assigned : Nat) : List Server × MinHeap :=
  match tasks with
  | [] => (ss, heap)
  | t :: ts =>
    let p1 := assignTask ss heap t
    let n := assigned + 1
    let p2 := if n % interval = 0 then rebalanceLoads p1.1 threshold p1.2 else p1
    runTasks p2.1 p2.2 ts interval threshold n

/-- Adjacency-list graph; `adjList.get i` is server `i`'s list of edge
    destinations, most recently added first.  Ids are `ℤ` because the C
    `addEdge` range-validates possibly-negative `int` arguments. -/
structure Graph where
  numServers : ℤ
  adjList : List (List ℤ)
deriving DecidableEq

/-- `createGraph`: `n` servers, all adjacency lists empty. -/
def createGraph (n : Nat) : Graph := ⟨n, List.replicate n []⟩

/-- `edgeExists`: linear scan of `adjList[src]` for `dest`. -/
def edgeExists (g : Graph) (src dest : ℤ) : Bool :=
  (g.adjList.getD src.toNat []).contains dest

/-- Interactive `addEdge`: validate range, self-edge and duplicate; on
    success push `dest` at the head of `adjList[src]`.  Returns the new
    graph and the C return flag. -/
def addEdge (g : Graph) (src dest : ℤ) : Graph × Bool :=
  if src < 0 ∨ src ≥ g.numServers ∨ dest < 0 ∨ dest ≥ g.numServers then (g, false)
  else if src = dest then (g, false)
  else if edgeExists g src dest then (g, false)
  else
    ({ g with adjList := g.adjList.set src.toNat (dest :: g.adjList.getD src.toNat []) },
      true)

/-- `clearBuffer`: discard characters up to and including the next newline. -/
def dropLine : List Char → List Char
  | [] => []
  | c :: cs => if c = '\n' then cs else dropLine cs

/-- `getYesNoInput` over an input character stream: read one character,
    discard the rest of its line, canonicalize `Y`/`y`/`N`/`n`, and
    re-prompt on anything else.  Returns the canonical answer and the
    unconsumed input; `none` models end of input. -/
def getYesNoInput : List Char → Option (Char × List Char)
  | [] => none
  | c :: cs =>
    let rest := dropLine cs
    let response : Char :=
      if c = 'Y' ∨ c = 'y' then 'Y' else if c = 'N' ∨ c = 'n' then 'N' else '?'
    if response = '?' then getYesNoInput rest else some (response, rest)
termination_by l => l.length
decreasing_by
  have : ∀ xs : List Char, (dropLine xs).length ≤ xs.length := by
    intro xs
    induction xs with
    | nil => simp [dropLine]
    | cons x xs ih =>
      simp only [dropLine]
      split
      · simp
      · simpa using Nat.le_succ_of_le ih
  calc (dropLine cs).length ≤ cs.length := this cs
    _ < (c :: cs).length := by simp

/-- One heap operation of the claim “any sequence of insert / extractMin /
    update”. -/
inductive HeapOp where
  | insert (serverId : Nat) (load : ℚ)
  | extract
  | update (serverId : Nat) (load : ℚ)

/-- Apply one operation; an extract on an empty heap (a precondition
    violation in the C source) is a no-op. -/
def applyOp (h : MinHeap) : HeapOp → MinHeap
  | .insert sid x => insertHeap h sid x
  | .extract =>
    match extractMin h with
    | none => h
    | some (_, h') => h'
  | .update sid x => updateHeap h sid x

/-- Apply a sequence of heap operations from left to right. -/
def applyOps (h : MinHeap) (ops : List HeapOp) : MinHeap := ops.foldl applyOp h

/-- State of the array while `heapifyUp` is at cursor `j`: every non-root
    index other than `j` satisfies the parent bound, and `j`'s children (if
    any) are already bounded below by `j`'s parent. -/
def UpOK (l : List HeapNode) (j : Nat) : Prop :=
  j < l.length ∧
  (∀ i, 0 < i → i < l.length → i ≠ j → ld l ((i - 1) / 2) ≤ ld l i) ∧
  (∀ c, c < l.length → (c - 1) / 2 = j → 0 < j → ld l ((j - 1) / 2) ≤ ld l c)

/-- State of the array while `heapifyDown` is at cursor `j`: the parent
    bound holds at every index whose parent is not `j`, and `j`'s children
    are already bounded below by `j`'s parent. -/
def DownOK (l : List HeapNode) (j : Nat) : Prop :=
  (∀ i, 0 < i → i < l.length → (i - 1) / 2 ≠ j → ld l ((i - 1) / 2) ≤ ld l i) ∧
  (∀ c, c < l.length → (c - 1) / 2 = j → 0 < j → ld l ((j - 1) / 2) ≤ ld l c)

/-- Two servers at 90% and 60% load (capacities 100). -/
def serversFire : List Server := [⟨0, 100, 90⟩, ⟨1, 100, 60⟩]

/-- A heap in sync with `serversFire`. -/
def heapFire : MinHeap := ⟨[⟨1, 60⟩, ⟨0, 90⟩], 2⟩

/-- Two servers at 70% and 60% load (capacities 100). -/
def serversNoFire : List Server := [⟨0, 100, 70⟩, ⟨1, 100, 60⟩]

/-- A heap in sync with `serversNoFire`. -/
def heapNoFire : MinHeap := ⟨[⟨1, 60⟩, ⟨0, 70⟩], 2⟩

/-- Two servers where the most-loaded-by-absolute-load server has the
    *lower* load percentage. -/
def serversSkewed : List Server := [⟨0, 200, 60⟩, ⟨1, 50, 40⟩]

/-- The heap is in sync with the server registry: every entry names a valid
    server and carries its current load, and every server has an entry. -/
def Sync (heap : MinHeap) (ss : List Server) : Prop :=
  (∀ e ∈ heap.arr, e.serverId < ss.length ∧ e.load = loadAt ss e.serverId) ∧
  (∀ i, i < ss.length → ∃ e ∈ heap.arr, e.serverId = i)

/-- Servers used in the C1 witness. -/
def demoServers : List Server := [⟨0, 100, 10⟩, ⟨1, 100, 0⟩, ⟨2, 100, 0⟩]

/-- A heap in sync with `demoServers`. -/
def demoHeap : MinHeap := ⟨[⟨1, 0⟩, ⟨0, 10⟩, ⟨2, 0⟩], 3⟩

/-- `createMinHeap`: an empty heap of the given capacity. -/
def createMinHeap (capacity : Nat) : MinHeap := ⟨[], capacity⟩

/-- The three equal servers of the end-to-end scenario (capacity 100 each,
    all starting at load 0). -/
def scenarioServers : List Server := [⟨0, 100, 0⟩, ⟨1, 100, 0⟩, ⟨2, 100, 0⟩]

/-- The scenario heap, seeded by inserting servers 0, 1, 2 at load 0. -/
def scenarioHeap : MinHeap :=
  insertHeap (insertHeap (insertHeap (createMinHeap 3) 0 0) 1 0) 2 0

/-- The end-to-end run: three tasks of load 10, rebalance interval 4
    (greater than the task count, so rebalancing never triggers). -/
def scenarioRun : List Server × MinHeap :=
  runTasks scenarioServers scenarioHeap [10, 10, 10] 4 20 0

/-! ### Theorems -/

theorem childMin_cases (l : List HeapNode) (i : Nat) :
    childMin l i = i ∨ (i < childMin l i ∧ childMin l i < l.length) := by
  simp only [childMin]
  split_ifs <;> omega

theorem getD_set_self {α : Type} (l : List α) (i : Nat) (x d : α) (h : i < l.length) :
    (l.set i x).getD i d = x := by
  rw [List.getD_eq_getElem _ _ (by simpa using h)]
  simp [List.getElem_set]

theorem getD_set_ne {α : Type} (l : List α) {i j : Nat} (x d : α) (h : i ≠ j) :
    (l.set i x).getD j d = l.getD j d := by
  simp [List.getD_eq_getD_get?, List.get?_eq_getElem?, List.getElem?_set_ne h]

theorem getD_dropLast {α : Type} (l : List α) (i : Nat) (d : α) (h : i < l.length - 1) :
    l.dropLast.getD i d = l.getD i d := by
  have h' : i < l.length := by omega
  rw [List.getD_eq_getElem _ _ (by simpa [List.length_dropLast] using h),
    List.getD_eq_getElem _ _ h', List.getElem_dropLast]

theorem length_swapL (l : List HeapNode) (i j : Nat) : (swapL l i j).length = l.length := by
  simp [swapL]

theorem ld_swapL (l : List HeapNode) {i j : Nat} (hi : i < l.length) (hj : j < l.length)
    (x : Nat) :
    ld (swapL l i j) x = if x = j then ld l i else if x = i then ld l j else ld l x := by
  simp only [swapL, ld]
  rcases eq_or_ne x j with rfl | hxj
  · rw [getD_set_self _ _ _ _ (by simpa using hj)]
    simp
  · rw [getD_set_ne _ _ _ (Ne.symm hxj)]
    rcases eq_or_ne x i with rfl | hxi
    · rw [getD_set_self _ _ _ _ hi]
      simp [hxj]
    · rw [getD_set_ne _ _ _ (Ne.symm hxi), if_neg hxj, if_neg hxi]

theorem cons_set_perm {α : Type} (xs : List α) (k : Nat) (x d : α) (hk : k < xs.length) :
    List.Perm (x :: xs) (xs.getD k d :: xs.set k x) := by
  have hxs : xs = xs.take k ++ xs.getD k d :: xs.drop (k + 1) := by
    conv_lhs => rw [← List.take_append_drop k xs]
    rw [List.drop_eq_getElem_cons hk, List.getD_eq_getElem _ _ hk]
  have hset : xs.set k x = xs.take k ++ x :: xs.drop (k + 1) := by
    rw [List.set_eq_take_append_cons_drop]
    simp [hk]
  calc List.Perm (x :: xs) (x :: (xs.getD k d :: (xs.take k ++ xs.drop (k + 1)))) := by
        conv_lhs => rw [hxs]
        exact List.Perm.cons _ List.perm_middle
    _ = x :: xs.getD k d :: (xs.take k ++ xs.drop (k + 1)) := rfl
    List.Perm _ (xs.getD k d :: x :: (xs.take k ++ xs.drop (k + 1))) := List.Perm.swap _ _ _
    List.Perm _ (xs.getD k d :: xs.set k x) := by
        rw [hset]
        exact List.Perm.cons _ List.perm_middle.symm

theorem swapL_comm (l : List HeapNode) {i j : Nat} (h : i ≠ j) :
    swapL l i j = swapL l j i := by
  simp only [swapL]
  exact List.set_comm _ _ _ h

theorem swapL_perm (l : List HeapNode) (i j : Nat) (hi : i < l.length) (hj : j < l.length) :
    List.Perm (swapL l i j) l := by
  induction l generalizing i j with
  | nil => simp at hi
  | cons a xs ih =>
    match i, j with
    | 0, 0 =>
      simp [swapL, ld]
    | 0, k + 1 =>
      have hk : k < xs.length := by simpa using hj
      have : swapL (a :: xs) 0 (k + 1) = xs.getD k dNode :: xs.set k a := by
        simp [swapL]
      rw [this]
      exact (cons_set_perm xs k a dNode hk).symm
    | m + 1, 0 =>
      rw [swapL_comm _ (by omega)]
      have hm : m < xs.length := by simpa using hi
      have : swapL (a :: xs) 0 (m + 1) = xs.getD m dNode :: xs.set m a := by
        simp [swapL]
      rw [this]
      exact (cons_set_perm xs m a dNode hm).symm
    | m + 1, k + 1 =>
      have : swapL (a :: xs) (m + 1) (k + 1) = a :: swapL xs m k := by
        simp [swapL]
      rw [this]
      exact List.Perm.cons a (ih m k (by simpa using hi) (by simpa using hj))

theorem upok_swap {l : List HeapNode} {j : Nat} (h : UpOK l (j + 1))
    (hlt : ld l (j + 1) < ld l ((j + 1 - 1) / 2)) :
    UpOK (swapL l (j + 1) ((j + 1 - 1) / 2)) ((j + 1 - 1) / 2) := by
  obtain ⟨hjlen, hedge, hbridge⟩ := h
  have hplt : (j + 1 - 1) / 2 < j + 1 := by omega
  have hplen : (j + 1 - 1) / 2 < l.length := by omega
  have hld := ld_swapL l hjlen hplen
  refine ⟨?_, ?_, ?_⟩
  · rw [length_swapL]; omega
  · intro i hi hilen hip
    rw [length_swapL] at hilen
    rw [hld, hld]
    rcases eq_or_ne i (j + 1) with rfl | hij
    · rw [if_pos (by omega), if_neg (by omega), if_pos rfl]
      exact hlt.le
    · rw [if_neg hip, if_neg hij]
      rcases eq_or_ne ((i - 1) / 2) ((j + 1 - 1) / 2) with hpp | hpp
      · rw [if_pos hpp]
        exact hlt.le.trans (hpp ▸ hedge i hi hilen hij)
      · rw [if_neg hpp]
        rcases eq_or_ne ((i - 1) / 2) (j + 1) with hpj | hpj
        · rw [if_pos hpj]
          exact hpj ▸ hbridge i hilen hpj (by omega)
        · rw [if_neg hpj]
          exact hedge i hi hilen hij
  · intro c hclen hcp hppos
    rw [length_swapL] at hclen
    have hcpos : 0 < c := by omega
    have hclow : (j + 1 - 1) / 2 < c := by omega
    rw [hld, hld]
    rw [if_neg (by omega), if_neg (by omega)]
    rcases eq_or_ne c (j + 1) with rfl | hcj
    · rw [if_neg (by omega), if_pos rfl]
      exact hedge _ hppos hplen (by omega)
    · rw [if_neg (by omega), if_neg hcj]
      exact (hedge _ hppos hplen (by omega)).trans (hcp ▸ hedge c hcpos hclen hcj)

theorem heapifyUp_isHeap : ∀ (j : Nat) (l : List HeapNode), UpOK l j → IsHeap (heapifyUp l j) := by
  intro j
  induction j using Nat.strong_induction_on with
  | _ j ih =>
    intro l h
    match j with
    | 0 =>
      rw [heapifyUp, if_pos rfl]
      intro i hi hilen
      exact h.2.1 i hi hilen (by omega)
    | j + 1 =>
      rw [heapifyUp, if_neg (by omega : ¬(j + 1 = 0))]
      show IsHeap (if ld l (j + 1) < ld l ((j + 1 - 1) / 2) then
        heapifyUp (swapL l (j + 1) ((j + 1 - 1) / 2)) ((j + 1 - 1) / 2) else l)
      split_ifs with hcond
      · exact ih _ (by omega) _ (upok_swap h hcond)
      · intro i hi hilen
        rcases eq_or_ne i (j + 1) with rfl | hne
        · exact not_lt.mp hcond
        · exact h.2.1 i hi hilen hne

theorem heapifyUp_perm : ∀ (j : Nat) (l : List HeapNode), j < l.length →
    List.Perm (heapifyUp l j) l := by
  intro j
  induction j using Nat.strong_induction_on with
  | _ j ih =>
    intro l hj
    match j with
    | 0 =>
      rw [heapifyUp, if_pos rfl]
    | j + 1 =>
      rw [heapifyUp, if_neg (by omega : ¬(j + 1 = 0))]
      show List.Perm (if ld l (j + 1) < ld l ((j + 1 - 1) / 2) then
        heapifyUp (swapL l (j + 1) ((j + 1 - 1) / 2)) ((j + 1 - 1) / 2) else l) l
      split_ifs with hcond
      · have hplen : (j + 1 - 1) / 2 < l.length := by omega
        exact (ih _ (by omega) _ (by rw [length_swapL]; omega)).trans
          (swapL_perm l (j + 1) _ hj hplen)
      · exact List.Perm.refl l

theorem childMin_eq_left {l : List HeapNode} {j : Nat}
    (h1 : 2 * j + 1 < l.length ∧ ld l (2 * j + 1) < ld l j)
    (h2 : ¬(2 * j + 2 < l.length ∧ ld l (2 * j + 2) < ld l (2 * j + 1))) :
    childMin l j = 2 * j + 1 := by
  simp only [childMin]
  rw [if_pos h1, if_neg h2]

theorem childMin_eq_right_of_left {l : List HeapNode} {j : Nat}
    (h1 : 2 * j + 1 < l.length ∧ ld l (2 * j + 1) < ld l j)
    (h2 : 2 * j + 2 < l.length ∧ ld l (2 * j + 2) < ld l (2 * j + 1)) :
    childMin l j = 2 * j + 2 := by
  simp only [childMin]
  rw [if_pos h1, if_pos h2]

theorem childMin_eq_right_of_self {l : List HeapNode} {j : Nat}
    (h1 : ¬(2 * j + 1 < l.length ∧ ld l (2 * j + 1) < ld l j))
    (h2 : 2 * j + 2 < l.length ∧ ld l (2 * j + 2) < ld l j) :
    childMin l j = 2 * j + 2 := by
  simp only [childMin]
  rw [if_neg h1, if_pos h2]

theorem childMin_eq_self {l : List HeapNode} {j : Nat}
    (h1 : ¬(2 * j + 1 < l.length ∧ ld l (2 * j + 1) < ld l j))
    (h2 : ¬(2 * j + 2 < l.length ∧ ld l (2 * j + 2) < ld l j)) :
    childMin l j = j := by
  simp only [childMin]
  rw [if_neg h1, if_neg h2]

theorem childMin_self_le {l : List HeapNode} {j : Nat} (h : childMin l j = j) :
    ∀ c, 0 < c → c < l.length → (c - 1) / 2 = j → ld l j ≤ ld l c := by
  intro c hc0 hc hcp
  have hcases : c = 2 * j + 1 ∨ c = 2 * j + 2 := by omega
  by_cases h1 : 2 * j + 1 < l.length ∧ ld l (2 * j + 1) < ld l j
  · by_cases h2 : 2 * j + 2 < l.length ∧ ld l (2 * j + 2) < ld l (2 * j + 1)
    · have := childMin_eq_right_of_left h1 h2
      omega
    · have := childMin_eq_left h1 h2
      omega
  · by_cases h2 : 2 * j + 2 < l.length ∧ ld l (2 * j + 2) < ld l j
    · have := childMin_eq_right_of_self h1 h2
      omega
    · push_neg at h1 h2
      rcases hcases with rfl | rfl
      · exact h1 hc
      · exact h2 hc

theorem childMin_spec {l : List HeapNode} {j : Nat} (h : childMin l j ≠ j) :
    j < childMin l j ∧ childMin l j < l.length ∧
    ld l (childMin l j) < ld l j ∧
    (childMin l j - 1) / 2 = j ∧
    (∀ c, 0 < c → c < l.length → (c - 1) / 2 = j → ld l (childMin l j) ≤ ld l c) := by
  have hchild : ∀ c, 0 < c → (c - 1) / 2 = j → c < l.length → c = 2 * j + 1 ∨ c = 2 * j + 2 := by
    intro c hc0 h1 h2
    omega
  by_cases h1 : 2 * j + 1 < l.length ∧ ld l (2 * j + 1) < ld l j
  · by_cases h2 : 2 * j + 2 < l.length ∧ ld l (2 * j + 2) < ld l (2 * j + 1)
    · have hs := childMin_eq_right_of_left h1 h2
      rw [hs]
      refine ⟨by omega, h2.1, h2.2.trans h1.2, by omega, ?_⟩
      intro c hc0 hc hcp
      rcases hchild c hc0 hcp hc with rfl | rfl
      · exact h2.2.le
      · exact le_refl _
    · have hs := childMin_eq_left h1 h2
      rw [hs]
      refine ⟨by omega, h1.1, h1.2, by omega, ?_⟩
      intro c hc0 hc hcp
      push_neg at h2
      rcases hchild c hc0 hcp hc with rfl | rfl
      · exact le_refl _
      · exact h2 hc
  · by_cases h2 : 2 * j + 2 < l.length ∧ ld l (2 * j + 2) < ld l j
    · have hs := childMin_eq_right_of_self h1 h2
      rw [hs]
      refine ⟨by omega, h2.1, h2.2, by omega, ?_⟩
      intro c hc0 hc hcp
      push_neg at h1
      rcases hchild c hc0 hcp hc with rfl | rfl
      · exact h2.2.le.trans (h1 hc)
      · exact le_refl _
    · exact absurd (childMin_eq_self h1 h2) h

theorem downok_stop {l : List HeapNode} {j : Nat} (h : DownOK l j)
    (hstop : childMin l j = j) : IsHeap l := by
  intro i hi hilen
  rcases eq_or_ne ((i - 1) / 2) j with hpar | hpar
  · rw [hpar]
    exact childMin_self_le hstop i hi hilen hpar
  · exact h.1 i hi hilen hpar

theorem downok_swap {l : List HeapNode} {j : Nat} (h : DownOK l j)
    (hne : childMin l j ≠ j) :
    DownOK (swapL l j (childMin l j)) (childMin l j) := by
  obtain ⟨hjs, hslen, hlt, hspar, hsmin⟩ := childMin_spec hne
  have hjlen : j < l.length := lt_trans hjs hslen
  have hld := ld_swapL l hjlen hslen
  obtain ⟨hedge, hbridge⟩ := h
  constructor
  · intro i hi hilen hipar
    rw [length_swapL] at hilen
    rw [hld, hld]
    rcases eq_or_ne i (childMin l j) with rfl | his
    · rw [if_pos rfl, hspar, if_neg (by omega), if_pos rfl]
      exact hlt.le
    · rcases eq_or_ne i j with rfl | hij
      · rw [if_neg his, if_pos rfl, if_neg (by omega), if_neg (by omega)]
        exact hbridge _ hslen hspar hi
      · rw [if_neg his, if_neg hij]
        rcases eq_or_ne ((i - 1) / 2) j with hpj | hpj
        · rw [if_neg (by omega), if_pos hpj]
          exact hsmin i hi hilen hpj
        · rw [if_neg hipar, if_neg hpj]
          exact hedge i hi hilen hpj
  · intro c hclen hcpar hspos
    rw [length_swapL] at hclen
    have hcs : childMin l j < c := by omega
    rw [hld, hld, hspar, if_neg (by omega), if_pos rfl, if_neg (by omega), if_neg (by omega)]
    have := hedge c (by omega) hclen (by omega)
    rwa [hcpar] at this

theorem heapifyDown_isHeap_fuel : ∀ (n : Nat) (l : List HeapNode) (j : Nat),
    l.length - j ≤ n → DownOK l j → IsHeap (heapifyDown l j) := by
  intro n
  induction n with
  | zero =>
    intro l j hn h
    have hstop : childMin l j = j := by
      rcases childMin_cases l j with hs | hs
      · exact hs
      · omega
    rw [heapifyDown, if_pos hstop]
    exact downok_stop h hstop
  | succ n ih =>
    intro l j hn h
    rw [heapifyDown]
    split_ifs with hstop
    · exact downok_stop h hstop
    · obtain ⟨hjs, hslen, -, -, -⟩ := childMin_spec hstop
      exact ih _ _ (by rw [length_swapL]; omega) (downok_swap h hstop)

theorem heapifyDown_isHeap {l : List HeapNode} {j : Nat} (h : DownOK l j) :
    IsHeap (heapifyDown l j) :=
  heapifyDown_isHeap_fuel l.length l j (by omega) h

theorem heapifyDown_perm_fuel : ∀ (n : Nat) (l : List HeapNode) (j : Nat),
    l.length - j ≤ n → List.Perm (heapifyDown l j) l := by
  intro n
  induction n with
  | zero =>
    intro l j hn
    have hstop : childMin l j = j := by
      rcases childMin_cases l j with hs | hs
      · exact hs
      · omega
    rw [heapifyDown, if_pos hstop]
  | succ n ih =>
    intro l j hn
    rw [heapifyDown]
    split_ifs with hstop
    · exact List.Perm.refl l
    · obtain ⟨hjs, hslen, -, -, -⟩ := childMin_spec hstop
      exact (ih _ _ (by rw [length_swapL]; omega)).trans
        (swapL_perm l j _ (lt_trans hjs hslen) hslen)

theorem heapifyDown_perm (l : List HeapNode) (j : Nat) :
    List.Perm (heapifyDown l j) l :=
  heapifyDown_perm_fuel l.length l j (by omega)

/-- In a heap the root is a minimum over all live indices. -/
theorem isHeap_root_le {l : List HeapNode} (hl : IsHeap l) :
    ∀ i, i < l.length → ld l 0 ≤ ld l i := by
  intro i
  induction i using Nat.strong_induction_on with
  | _ i ih =>
    intro hi
    rcases Nat.eq_zero_or_pos i with rfl | hpos
    · exact le_refl _
    · exact (ih ((i - 1) / 2) (by omega) (by omega)).trans (hl i hpos hi)

theorem upok_insert {l : List HeapNode} (x : HeapNode) (hl : IsHeap l) :
    UpOK (l ++ [x]) l.length := by
  refine ⟨by simp, ?_, ?_⟩
  · intro i hi hilen hne
    simp only [List.length_append, List.length_cons, List.length_nil] at hilen
    have hi' : i < l.length := by omega
    have hp' : (i - 1) / 2 < l.length := by omega
    unfold ld
    rw [List.getD_append _ _ _ _ hi', List.getD_append _ _ _ _ hp']
    exact hl i hi hi'
  · intro c hclen hcp hpos
    simp only [List.length_append, List.length_cons, List.length_nil] at hclen
    omega

theorem insertHeap_isHeap {h : MinHeap} (sid : Nat) (x : ℚ) (hh : IsHeap h.arr) :
    IsHeap (insertHeap h sid x).arr := by
  unfold insertHeap
  split_ifs with hcap
  · exact hh
  · exact heapifyUp_isHeap _ _ (upok_insert _ hh)

theorem downok_extract {l : List HeapNode} (hl : IsHeap l) :
    DownOK ((l.set 0 (l.getD (l.length - 1) dNode)).dropLast) 0 := by
  have hlen : ((l.set 0 (l.getD (l.length - 1) dNode)).dropLast).length = l.length - 1 := by
    simp
  have hld : ∀ i, 0 < i → i < l.length - 1 →
      ld ((l.set 0 (l.getD (l.length - 1) dNode)).dropLast) i = ld l i := by
    intro i h0 hi
    unfold ld
    rw [getD_dropLast _ _ _ (by simpa using hi), getD_set_ne _ _ _ (by omega)]
  constructor
  · intro i hi hilen hipar
    rw [hlen] at hilen
    have hp0 : 0 < (i - 1) / 2 := by
      rcases Nat.eq_zero_or_pos ((i - 1) / 2) with hz | hp
      · exact absurd hz hipar
      · exact hp
    rw [hld i hi hilen, hld _ hp0 (by omega)]
    exact hl i hi (by omega)
  · intro c hclen hcp hpos
    omega

theorem extractMin_arr_perm {l : List HeapNode} (hne : l ≠ []) :
    List.Perm (l.getD 0 dNode :: (l.set 0 (l.getD (l.length - 1) dNode)).dropLast) l := by
  match l, hne with
  | a :: rest, _ =>
    have hset : ∀ g : HeapNode, (a :: rest).set 0 g = g :: rest := fun _ => rfl
    rw [hset]
    cases rest with
    | nil => simp
    | cons b t =>
      have hg : (a :: b :: t).getD ((a :: b :: t).length - 1) dNode
          = (b :: t).getLast (List.cons_ne_nil b t) := by
        rw [List.getLast_eq_getElem, List.getD_eq_getElem]
        · simp
        · simp
      have hdl : ((a :: b :: t).getD ((a :: b :: t).length - 1) dNode :: b :: t).dropLast
          = (a :: b :: t).getD ((a :: b :: t).length - 1) dNode :: (b :: t).dropLast := rfl
      rw [hdl]
      have hgd0 : (a :: b :: t).getD 0 dNode = a := rfl
      rw [hgd0]
      refine List.Perm.cons a ?_
      have happ : (b :: t).dropLast ++ [(b :: t).getLast (List.cons_ne_nil b t)] = b :: t :=
        List.dropLast_append_getLast _
      calc List.Perm ((a :: b :: t).getD ((a :: b :: t).length - 1) dNode :: (b :: t).dropLast)
            ((b :: t).dropLast ++ [(b :: t).getLast (List.cons_ne_nil b t)]) := by
            rw [hg]
            exact (List.perm_middle.trans (by simp)).symm
        List.Perm _ (b :: t) := by rw [happ]

theorem extractMin_spec {h : MinHeap} {m : HeapNode} {h' : MinHeap}
    (hh : IsHeap h.arr) (he : extractMin h = some (m, h')) :
    (∀ e ∈ h.arr, m.load ≤ e.load) ∧ List.Perm (m :: h'.arr) h.arr ∧ IsHeap h'.arr := by
  unfold extractMin at he
  split_ifs at he with hemp
  simp only [Option.some.injEq, Prod.mk.injEq] at he
  obtain ⟨hm, hh'⟩ := he
  have hne : h.arr ≠ [] := by
    intro hc
    rw [hc] at hemp
    simp at hemp
  have hpos0 : 0 < h.arr.length := List.length_pos.mpr hne
  subst hm
  subst hh'
  refine ⟨?_, ?_, ?_⟩
  · intro e he'
    obtain ⟨i, hi, rfl⟩ := List.getElem_of_mem he'
    have hroot := isHeap_root_le hh i hi
    unfold ld at hroot
    rwa [List.getD_eq_getElem _ _ hi] at hroot
  · have hperm := extractMin_arr_perm hne
    have harr' : List.Perm
        ((if 0 < (h.arr.set 0 (h.arr.getD (h.arr.length - 1) dNode)).dropLast.length then
            heapifyDown (h.arr.set 0 (h.arr.getD (h.arr.length - 1) dNode)).dropLast 0
          else (h.arr.set 0 (h.arr.getD (h.arr.length - 1) dNode)).dropLast))
        ((h.arr.set 0 (h.arr.getD (h.arr.length - 1) dNode)).dropLast) := by
      split_ifs with hpos
      · exact heapifyDown_perm _ 0
      · exact List.Perm.refl _
    exact (harr'.cons _).trans hperm
  · dsimp only
    split_ifs with hpos
    · exact heapifyDown_isHeap (downok_extract hh)
    · intro i hi hilen
      omega

theorem findServerIdx_lt : ∀ (l : List HeapNode) (sid : Nat) (i : Nat),
    findServerIdx l sid = some i → i < l.length := by
  intro l sid
  induction l with
  | nil =>
    intro i h
    simp [findServerIdx] at h
  | cons a rest ih =>
    intro i h
    simp only [findServerIdx] at h
    split_ifs at h with hsid
    · simp only [Option.some.injEq] at h
      subst h
      simp only [List.length_cons]
      omega
    · cases hfr : findServerIdx rest sid with
      | none =>
        rw [hfr] at h
        simp at h
      | some k =>
        rw [hfr] at h
        simp only [Option.map_some', Option.some.injEq] at h
        have := ih k hfr
        subst h
        simp only [List.length_cons]
        omega

theorem updateHeap_isHeap {h : MinHeap} (sid : Nat) (x : ℚ) (hh : IsHeap h.arr) :
    IsHeap (updateHeap h sid x).arr := by
  unfold updateHeap
  cases hf : findServerIdx h.arr sid with
  | none => exact hh
  | some idx =>
    have hidx : idx < h.arr.length := findServerIdx_lt _ _ _ hf
    have hlen1 : (h.arr.set idx ⟨(h.arr.getD idx dNode).serverId, x⟩).length
        = h.arr.length := by simp
    have hld1 : ∀ y, ld (h.arr.set idx ⟨(h.arr.getD idx dNode).serverId, x⟩) y
        = if y = idx then x else ld h.arr y := by
      intro y
      rcases eq_or_ne y idx with rfl | hy
      · unfold ld
        rw [getD_set_self _ _ _ _ hidx, if_pos rfl]
      · unfold ld
        rw [getD_set_ne _ _ _ (Ne.symm hy), if_neg hy]
    dsimp only
    split_ifs with hc
    · obtain ⟨hidx0, hcless⟩ := hc
      rw [hld1, hld1, if_pos rfl, if_neg (by omega)] at hcless
      apply heapifyUp_isHeap
      refine ⟨by omega, ?_, ?_⟩
      · intro i hi hilen hne
        rw [hlen1] at hilen
        rw [hld1, hld1, if_neg hne]
        rcases eq_or_ne ((i - 1) / 2) idx with hpar | hpar
        · rw [if_pos hpar]
          have h1 : ld h.arr ((idx - 1) / 2) ≤ ld h.arr idx := hh idx hidx0 hidx
          have h2 : ld h.arr idx ≤ ld h.arr i := hpar ▸ hh i hi hilen
          exact (hcless.le.trans h1).trans h2
        · rw [if_neg hpar]
          exact hh i hi hilen
      · intro c hclen hcp hcpos
        rw [hlen1] at hclen
        rw [hld1, hld1, if_neg (by omega), if_neg (by omega)]
        have h2 := hcp ▸ hh c (by omega) hclen
        exact (hh idx hidx0 hidx).trans h2
    · apply heapifyDown_isHeap
      constructor
      · intro i hi hilen hipar
        rw [hlen1] at hilen
        rw [hld1, hld1, if_neg hipar]
        rcases eq_or_ne i idx with rfl | hne
        · rw [if_pos rfl]
          have := fun hlt => hc ⟨hi, hlt⟩
          have hle := not_lt.mp this
          rwa [hld1, hld1, if_pos rfl, if_neg (by omega)] at hle
        · rw [if_neg hne]
          exact hh i hi hilen
      · intro c hclen hcp hcpos
        rw [hlen1] at hclen
        rw [hld1, hld1, if_neg (by omega), if_neg (by omega)]
        have h2 := hcp ▸ hh c (by omega) hclen
        exact (hh idx hcpos hidx).trans h2

theorem fmlGo_spec_fuel : ∀ (n : Nat) (ss : List Server) (i best : Nat) (maxL : ℚ),
    ss.length - i ≤ n →
    best < ss.length → maxL = loadAt ss best →
    (∀ j, j < i → loadAt ss j ≤ maxL) →
    fmlGo ss i best maxL < ss.length ∧
    (∀ j, j < ss.length → loadAt ss j ≤ loadAt ss (fmlGo ss i best maxL)) := by
  intro n
  induction n with
  | zero =>
    intro ss i best maxL hn hbest hmax hprev
    rw [fmlGo, dif_neg (by omega)]
    exact ⟨hbest, fun j hj => hmax ▸ hprev j (by omega)⟩
  | succ n ih =>
    intro ss i best maxL hn hbest hmax hprev
    rw [fmlGo]
    split_ifs with hi hgt
    · refine ih ss (i + 1) i (loadAt ss i) (by omega) hi rfl ?_
      intro j hj
      rcases Nat.lt_or_ge j i with hji | hji
      · exact (hprev j hji).trans hgt.le
      · have : j = i := by omega
        subst this
        exact le_refl _
    · refine ih ss (i + 1) best maxL (by omega) hbest hmax ?_
      intro j hj
      rcases Nat.lt_or_ge j i with hji | hji
      · exact hprev j hji
      · have : j = i := by omega
        subst this
        exact not_lt.mp hgt
    · exact ⟨hbest, fun j hj => hmax ▸ hprev j (by omega)⟩

theorem findMostLoadedServer_spec (ss : List Server) (hne : ss ≠ []) :
    findMostLoadedServer ss < ss.length ∧
    (∀ j, j < ss.length → loadAt ss j ≤ loadAt ss (findMostLoadedServer ss)) := by
  have h0 : 0 < ss.length := List.length_pos.mpr hne
  refine fmlGo_spec_fuel ss.length ss 1 0 (loadAt ss 0) (by omega) h0 rfl ?_
  intro j hj
  have : j = 0 := by omega
  subst this
  exact le_refl _

theorem fllGo_spec_fuel : ∀ (n : Nat) (ss : List Server) (i best : Nat) (minL : ℚ),
    ss.length - i ≤ n →
    best < ss.length → minL = loadAt ss best →
    (∀ j, j < i → minL ≤ loadAt ss j) →
    fllGo ss i best minL < ss.length ∧
    (∀ j, j < ss.length → loadAt ss (fllGo ss i best minL) ≤ loadAt ss j) := by
  intro n
  induction n with
  | zero =>
    intro ss i best minL hn hbest hmin hprev
    rw [fllGo, dif_neg (by omega)]
    exact ⟨hbest, fun j hj => hmin ▸ hprev j (by omega)⟩
  | succ n ih =>
    intro ss i best minL hn hbest hmin hprev
    rw [fllGo]
    split_ifs with hi hlt
    · refine ih ss (i + 1) i (loadAt ss i) (by omega) hi rfl ?_
      intro j hj
      rcases Nat.lt_or_ge j i with hji | hji
      · exact hlt.le.trans (hprev j hji)
      · have : j = i := by omega
        subst this
        exact le_refl _
    · refine ih ss (i + 1) best minL (by omega) hbest hmin ?_
      intro j hj
      rcases Nat.lt_or_ge j i with hji | hji
      · exact hprev j hji
      · have : j = i := by omega
        subst this
        exact not_lt.mp hlt
    · exact ⟨hbest, fun j hj => hmin ▸ hprev j (by omega)⟩

theorem findLeastLoadedServer_spec (ss : List Server) (hne : ss ≠ []) :
    findLeastLoadedServer ss < ss.length ∧
    (∀ j, j < ss.length → loadAt ss (findLeastLoadedServer ss) ≤ loadAt ss j) := by
  have h0 : 0 < ss.length := List.length_pos.mpr hne
  refine fllGo_spec_fuel ss.length ss 1 0 (loadAt ss 0) (by omega) h0 rfl ?_
  intro j hj
  have : j = 0 := by omega
  subst this
  exact le_refl _

theorem length_modifyLoad (ss : List Server) (i : Nat) (f : ℚ → ℚ) :
    (modifyLoad ss i f).length = ss.length := by
  simp [modifyLoad]

theorem loadAt_modifyLoad_self (ss : List Server) (i : Nat) (f : ℚ → ℚ)
    (hi : i < ss.length) :
    loadAt (modifyLoad ss i f) i = f (loadAt ss i) := by
  unfold loadAt modifyLoad
  rw [getD_set_self _ _ _ _ hi]
  rfl

theorem loadAt_modifyLoad_ne (ss : List Server) {i j : Nat} (f : ℚ → ℚ) (h : i ≠ j) :
    loadAt (modifyLoad ss i f) j = loadAt ss j := by
  unfold loadAt modifyLoad
  rw [getD_set_ne _ _ _ h]

theorem capacity_modifyLoad_self (ss : List Server) (i : Nat) (f : ℚ → ℚ)
    (hi : i < ss.length) :
    ((modifyLoad ss i f).getD i dServer).capacity = (ss.getD i dServer).capacity := by
  unfold modifyLoad
  rw [getD_set_self _ _ _ _ hi]

theorem sum_map_set (ss : List Server) (i : Nat) (v : Server) (hi : i < ss.length) :
    ((ss.set i v).map Server.currentLoad).sum
      = (ss.map Server.currentLoad).sum - (ss.getD i dServer).currentLoad
        + v.currentLoad := by
  have hdecomp : ss.take i ++ ss[i] :: ss.drop (i + 1) = ss := by
    rw [← List.drop_eq_getElem_cons hi, List.take_append_drop]
  have hset : ss.set i v = ss.take i ++ v :: ss.drop (i + 1) := by
    rw [List.set_eq_take_append_cons_drop]
    simp [hi]
  have h2 : (ss.map Server.currentLoad).sum
      = ((ss.take i).map Server.currentLoad).sum + ss[i].currentLoad
        + ((ss.drop (i + 1)).map Server.currentLoad).sum := by
    conv_lhs => rw [← hdecomp]
    simp only [List.map_append, List.map_cons, List.sum_append, List.sum_cons]
    ring
  rw [hset, List.getD_eq_getElem _ _ hi, h2]
  simp only [List.map_append, List.map_cons, List.sum_append, List.sum_cons]
  ring

theorem sum_modifyLoad (ss : List Server) (i : Nat) (f : ℚ → ℚ) (hi : i < ss.length) :
    ((modifyLoad ss i f).map Server.currentLoad).sum
      = (ss.map Server.currentLoad).sum - loadAt ss i + f (loadAt ss i) := by
  unfold modifyLoad
  rw [sum_map_set _ _ _ hi]
  rfl

theorem avg_le_most (ss : List Server) (hne : ss ≠ []) :
    calculateAverageLoad ss ≤ loadAt ss (findMostLoadedServer ss) := by
  obtain ⟨hlt, hmax⟩ := findMostLoadedServer_spec ss hne
  have h0 : 0 < ss.length := List.length_pos.mpr hne
  have hsum : (ss.map Server.currentLoad).sum
      ≤ ss.length * loadAt ss (findMostLoadedServer ss) := by
    have := List.sum_le_card_nsmul (ss.map Server.currentLoad)
      (loadAt ss (findMostLoadedServer ss)) ?_
    · simpa [nsmul_eq_mul] using this
    · intro x hx
      obtain ⟨s, hs, rfl⟩ := List.mem_map.mp hx
      obtain ⟨k, hk, rfl⟩ := List.getElem_of_mem hs
      have hk' : loadAt ss k = ss[k].currentLoad := by
        rw [loadAt, List.getD_eq_getElem _ _ hk]
      exact hk' ▸ hmax k hk
  unfold calculateAverageLoad
  rw [div_le_iff₀ (by exact_mod_cast h0)]
  calc (ss.map Server.currentLoad).sum
      ≤ ss.length * loadAt ss (findMostLoadedServer ss) := hsum
    _ = loadAt ss (findMostLoadedServer ss) * ss.length := by ring

theorem least_le_avg (ss : List Server) (hne : ss ≠ []) :
    loadAt ss (findLeastLoadedServer ss) ≤ calculateAverageLoad ss := by
  obtain ⟨hlt, hmin⟩ := findLeastLoadedServer_spec ss hne
  have h0 : 0 < ss.length := List.length_pos.mpr hne
  have hsum : ss.length * loadAt ss (findLeastLoadedServer ss)
      ≤ (ss.map Server.currentLoad).sum := by
    have := List.card_nsmul_le_sum (ss.map Server.currentLoad)
      (loadAt ss (findLeastLoadedServer ss)) ?_
    · simpa [nsmul_eq_mul] using this
    · intro x hx
      obtain ⟨s, hs, rfl⟩ := List.mem_map.mp hx
      obtain ⟨k, hk, rfl⟩ := List.getElem_of_mem hs
      have hk' : loadAt ss k = ss[k].currentLoad := by
        rw [loadAt, List.getD_eq_getElem _ _ hk]
      exact hk' ▸ hmin k hk
  unfold calculateAverageLoad
  rw [le_div_iff₀ (by exact_mod_cast h0)]
  calc loadAt ss (findLeastLoadedServer ss) * ss.length
      = ss.length * loadAt ss (findLeastLoadedServer ss) := by ring
    _ ≤ (ss.map Server.currentLoad).sum := hsum

theorem avg_nonneg (ss : List Server) (hpos : ∀ s ∈ ss, 0 ≤ s.currentLoad) :
    0 ≤ calculateAverageLoad ss := by
  unfold calculateAverageLoad
  apply div_nonneg
  · apply List.sum_nonneg
    intro x hx
    obtain ⟨s, hs, rfl⟩ := List.mem_map.mp hx
    exact hpos s hs
  · positivity

theorem rebalanceLoads_not_fire (ss : List Server) (threshold : ℚ) (heap : MinHeap)
    (h : ¬ imbalanceOf ss > threshold) :
    rebalanceLoads ss threshold heap = (ss, heap) := by
  simp only [rebalanceLoads]
  rw [if_neg h]

theorem rebalanceLoads_fst_of_fire (ss : List Server) (threshold : ℚ) (heap : MinHeap)
    (h : imbalanceOf ss > threshold) :
    (rebalanceLoads ss threshold heap).1
      = modifyLoad (modifyLoad ss (findMostLoadedServer ss)
          (fun x => x - (loadAt ss (findMostLoadedServer ss)
            - calculateAverageLoad ss) * (1 / 2)))
          (findLeastLoadedServer ss)
          (fun x => x + (loadAt ss (findMostLoadedServer ss)
            - calculateAverageLoad ss) * (1 / 2)) := by
  simp only [rebalanceLoads]
  rw [if_pos h]

theorem loadAt_nonneg (ss : List Server) (hpos : ∀ s ∈ ss, 0 ≤ s.currentLoad) (i : Nat) :
    0 ≤ loadAt ss i := by
  unfold loadAt
  rcases Nat.lt_or_ge i ss.length with hi | hi
  · rw [List.getD_eq_getElem _ _ hi]
    exact hpos _ (List.getElem_mem hi)
  · rw [List.getD_eq_default _ _ hi]
    norm_num [dServer]

theorem mem_modifyLoad {ss : List Server} {i : Nat} {f : ℚ → ℚ} {s : Server}
    (hs : s ∈ modifyLoad ss i f) :
    s ∈ ss ∨ s.currentLoad = f (loadAt ss i) := by
  rcases List.mem_or_eq_of_mem_set hs with h | h
  · exact Or.inl h
  · right
    rw [h]

/-- C4: whenever `rebalanceLoads` migrates, the most-loaded server loses
    exactly `M = (mostLoaded.currentLoad - averageLoad) * 0.5`, the
    least-loaded server gains exactly `M`, and the fleet-wide sum of current
    loads is unchanged (exact rational arithmetic). -/
theorem rebalance_conserves_load (ss : List Server) (threshold : ℚ) (heap : MinHeap)
    (hne : ss ≠ []) (hfire : imbalanceOf ss > threshold) :
    loadAt (rebalanceLoads ss threshold heap).1 (findMostLoadedServer ss)
        = loadAt ss (findMostLoadedServer ss)
          - (loadAt ss (findMostLoadedServer ss) - calculateAverageLoad ss) * (1 / 2) ∧
    loadAt (rebalanceLoads ss threshold heap).1 (findLeastLoadedServer ss)
        = loadAt ss (findLeastLoadedServer ss)
          + (loadAt ss (findMostLoadedServer ss) - calculateAverageLoad ss) * (1 / 2) ∧
    ((rebalanceLoads ss threshold heap).1.map Server.currentLoad).sum
        = (ss.map Server.currentLoad).sum := by
  obtain ⟨hmi, hmost⟩ := findMostLoadedServer_spec ss hne
  obtain ⟨hli, hleast⟩ := findLeastLoadedServer_spec ss hne
  rw [rebalanceLoads_fst_of_fire ss threshold heap hfire]
  set mi := findMostLoadedServer ss with hmidef
  set li := findLeastLoadedServer ss with hlidef
  set M := (loadAt ss mi - calculateAverageLoad ss) * (1 / 2) with hM
  have hlen1 : (modifyLoad ss mi (fun x => x - M)).length = ss.length :=
    length_modifyLoad ss mi _
  have hli1 : li < (modifyLoad ss mi (fun x => x - M)).length := by
    rw [hlen1]
    exact hli
  refine ⟨?_, ?_, ?_⟩
  · rcases eq_or_ne li mi with heq | hneq
    · have havg1 : calculateAverageLoad ss ≤ loadAt ss mi := avg_le_most ss hne
      have havg2 : loadAt ss li ≤ calculateAverageLoad ss := least_le_avg ss hne
      rw [heq] at havg2
      have hM0 : M = 0 := by
        rw [hM, le_antisymm havg2 havg1]
        ring
      rw [heq]
      rw [loadAt_modifyLoad_self _ _ _ (show mi < (modifyLoad ss mi
        (fun x => x - M)).length by rw [hlen1]; exact hmi)]
      rw [loadAt_modifyLoad_self _ _ _ hmi]
      rw [hM0]
      ring
    · rw [loadAt_modifyLoad_ne _ _ hneq, loadAt_modifyLoad_self _ _ _ hmi]
  · rcases eq_or_ne li mi with heq | hneq
    · have havg1 : calculateAverageLoad ss ≤ loadAt ss mi := avg_le_most ss hne
      have havg2 : loadAt ss li ≤ calculateAverageLoad ss := least_le_avg ss hne
      rw [heq] at havg2
      have hM0 : M = 0 := by
        rw [hM, le_antisymm havg2 havg1]
        ring
      rw [heq]
      rw [loadAt_modifyLoad_self _ _ _ (show mi < (modifyLoad ss mi
        (fun x => x - M)).length by rw [hlen1]; exact hmi)]
      rw [loadAt_modifyLoad_self _ _ _ hmi]
      rw [hM0]
      ring
    · rw [loadAt_modifyLoad_self _ _ _ hli1, loadAt_modifyLoad_ne _ _ (Ne.symm hneq)]
  · rw [sum_modifyLoad _ _ _ hli1, sum_modifyLoad _ _ _ hmi]
    ring

theorem most_serversFire : findMostLoadedServer serversFire = 0 := by
  rw [findMostLoadedServer]
  rw [fmlGo]
  norm_num [loadAt, serversFire, dServer]
  rw [fmlGo]
  norm_num [serversFire]

theorem least_serversFire : findLeastLoadedServer serversFire = 1 := by
  rw [findLeastLoadedServer]
  rw [fllGo]
  norm_num [loadAt, serversFire, dServer]
  rw [fllGo]
  norm_num [serversFire]

theorem imbalance_serversFire : imbalanceOf serversFire = 30 := by
  rw [imbalanceOf, most_serversFire, least_serversFire]
  norm_num [pctAt, getLoadPercentage, serversFire, dServer]

theorem most_serversNoFire : findMostLoadedServer serversNoFire = 0 := by
  rw [findMostLoadedServer]
  rw [fmlGo]
  norm_num [loadAt, serversNoFire, dServer]
  rw [fmlGo]
  norm_num [serversNoFire]

theorem least_serversNoFire : findLeastLoadedServer serversNoFire = 1 := by
  rw [findLeastLoadedServer]
  rw [fllGo]
  norm_num [loadAt, serversNoFire, dServer]
  rw [fllGo]
  norm_num [serversNoFire]

theorem imbalance_serversNoFire : imbalanceOf serversNoFire = 10 := by
  rw [imbalanceOf, most_serversNoFire, least_serversNoFire]
  norm_num [pctAt, getLoadPercentage, serversNoFire, dServer]

/-- C5: `rebalanceLoads` migrates load iff the imbalance strictly exceeds
    the threshold; concretely, at 90%/60% with threshold 20 it fires and
    changes the loads, and at 70%/60% it leaves servers and heap unchanged. -/
theorem rebalance_trigger_condition :
    (∀ (ss : List Server) (threshold : ℚ) (heap : MinHeap),
        ¬ imbalanceOf ss > threshold → rebalanceLoads ss threshold heap = (ss, heap)) ∧
    imbalanceOf serversFire = 30 ∧
    (rebalanceLoads serversFire 20 heapFire).1
      = [⟨0, 100, 165 / 2⟩, ⟨1, 100, 135 / 2⟩] ∧
    imbalanceOf serversNoFire = 10 ∧
    rebalanceLoads serversNoFire 20 heapNoFire = (serversNoFire, heapNoFire) := by
  refine ⟨rebalanceLoads_not_fire, imbalance_serversFire, ?_, imbalance_serversNoFire, ?_⟩
  · rw [rebalanceLoads_fst_of_fire _ _ _ (by rw [imbalance_serversFire]; norm_num)]
    rw [most_serversFire, least_serversFire]
    norm_num [modifyLoad, loadAt, calculateAverageLoad, serversFire, dServer]
  · exact rebalanceLoads_not_fire _ _ _ (by rw [imbalance_serversNoFire]; norm_num)

theorem most_serversSkewed : findMostLoadedServer serversSkewed = 0 := by
  rw [findMostLoadedServer]
  rw [fmlGo]
  norm_num [loadAt, serversSkewed, dServer]
  rw [fmlGo]
  norm_num [serversSkewed]

theorem least_serversSkewed : findLeastLoadedServer serversSkewed = 1 := by
  rw [findLeastLoadedServer]
  rw [fllGo]
  norm_num [loadAt, serversSkewed, dServer]
  rw [fllGo]
  norm_num [serversSkewed]

/-- C6 counterexample: on capacities [200, 50] with loads [60, 40] the code
    computes imbalance −50, while the highest minus lowest load percentage
    is 80 − 30 = 50. -/
theorem imbalance_not_percentage_spread :
    imbalanceOf serversSkewed = -50 ∧
    pctAt serversSkewed 0 = 30 ∧
    pctAt serversSkewed 1 = 80 ∧
    imbalanceOf serversSkewed ≠ 80 - 30 := by
  have h1 : imbalanceOf serversSkewed = -50 := by
    rw [imbalanceOf, most_serversSkewed, least_serversSkewed]
    norm_num [pctAt, getLoadPercentage, serversSkewed, dServer]
  refine ⟨h1, ?_, ?_, ?_⟩
  · norm_num [pctAt, getLoadPercentage, serversSkewed, dServer]
  · norm_num [pctAt, getLoadPercentage, serversSkewed, dServer]
  · rw [h1]
    norm_num

/-- C6 (amended): the imbalance equals the load percentage of a server
    attaining the maximum absolute load minus the load percentage of a
    server attaining the minimum absolute load (first index wins ties). -/
theorem imbalance_eq_pct_of_extremes (ss : List Server) (hne : ss ≠ []) :
    ∃ mi li, mi < ss.length ∧ li < ss.length ∧
      (∀ j, j < ss.length → loadAt ss j ≤ loadAt ss mi) ∧
      (∀ j, j < ss.length → loadAt ss li ≤ loadAt ss j) ∧
      imbalanceOf ss = pctAt ss mi - pctAt ss li := by
  obtain ⟨hmi, hmost⟩ := findMostLoadedServer_spec ss hne
  obtain ⟨hli, hleast⟩ := findLeastLoadedServer_spec ss hne
  exact ⟨findMostLoadedServer ss, findLeastLoadedServer ss, hmi, hli, hmost, hleast, rfl⟩

/-- Witness for C6's amended theorem at a concrete fleet. -/
theorem imbalance_eq_pct_of_extremes_witness :
    ∃ mi li, mi < serversSkewed.length ∧ li < serversSkewed.length ∧
      (∀ j, j < serversSkewed.length → loadAt serversSkewed j ≤ loadAt serversSkewed mi) ∧
      (∀ j, j < serversSkewed.length → loadAt serversSkewed li ≤ loadAt serversSkewed j) ∧
      imbalanceOf serversSkewed = pctAt serversSkewed mi - pctAt serversSkewed li :=
  imbalance_eq_pct_of_extremes serversSkewed (by simp [serversSkewed])

/-- C9: task assignment with a positive load and rebalancing both preserve
    non-negativity of every server's current load; the migration amount is
    non-negative and never exceeds the source server's load. -/
theorem loads_stay_nonneg :
    (∀ (ss : List Server) (heap : MinHeap) (t : ℚ), 0 < t →
        (∀ s ∈ ss, 0 ≤ s.currentLoad) →
        ∀ s ∈ (assignTask ss heap t).1, 0 ≤ s.currentLoad) ∧
    (∀ (ss : List Server) (threshold : ℚ) (heap : MinHeap), ss ≠ [] →
        (∀ s ∈ ss, 0 ≤ s.currentLoad) →
        0 ≤ (loadAt ss (findMostLoadedServer ss) - calculateAverageLoad ss) * (1 / 2) ∧
        (loadAt ss (findMostLoadedServer ss) - calculateAverageLoad ss) * (1 / 2)
          ≤ loadAt ss (findMostLoadedServer ss) ∧
        ∀ s ∈ (rebalanceLoads ss threshold heap).1, 0 ≤ s.currentLoad) := by
  constructor
  · intro ss heap t ht hpos s hs
    unfold assignTask at hs
    cases he : extractMin heap with
    | none =>
      rw [he] at hs
      exact hpos s hs
    | some p =>
      obtain ⟨mn, h1⟩ := p
      rw [he] at hs
      dsimp only at hs
      rcases mem_modifyLoad hs with h | h
      · exact hpos s h
      · rw [h]
        have := loadAt_nonneg ss hpos mn.serverId
        linarith
  · intro ss threshold heap hne hpos
    have havg1 : calculateAverageLoad ss ≤ loadAt ss (findMostLoadedServer ss) :=
      avg_le_most ss hne
    have havg0 : 0 ≤ calculateAverageLoad ss := avg_nonneg ss hpos
    have hload0 : 0 ≤ loadAt ss (findMostLoadedServer ss) := loadAt_nonneg ss hpos _
    refine ⟨by linarith, by linarith, ?_⟩
    by_cases hfire : imbalanceOf ss > threshold
    · rw [rebalanceLoads_fst_of_fire _ _ _ hfire]
      set mi := findMostLoadedServer ss with hmidef
      set li := findLeastLoadedServer ss with hlidef
      set M := (loadAt ss mi - calculateAverageLoad ss) * (1 / 2) with hM
      have hM0 : 0 ≤ M := by rw [hM]; linarith
      have hMle : M ≤ loadAt ss mi := by rw [hM]; linarith
      intro s hs
      rcases mem_modifyLoad hs with h1 | h1
      · rcases mem_modifyLoad h1 with h2 | h2
        · exact hpos s h2
        · rw [h2]
          linarith
      · rw [h1]
        have hlinonneg : 0 ≤ loadAt (modifyLoad ss mi (fun x => x - M)) li := by
          rcases eq_or_ne li mi with heq | hneq
          · rcases Nat.lt_or_ge mi ss.length with hmi | hmi
            · rw [heq, loadAt_modifyLoad_self _ _ _ hmi]
              linarith
            · rw [heq, loadAt]
              rw [modifyLoad, List.set_eq_of_length_le (by simpa using hmi)]
              exact loadAt_nonneg ss hpos mi
          · rw [loadAt_modifyLoad_ne _ _ (Ne.symm hneq)]
            exact loadAt_nonneg ss hpos li
        linarith
    · rw [rebalanceLoads_not_fire _ _ _ hfire]
      exact hpos

/-- C2: starting from any array satisfying the min-heap property, every
    sequence of `insertHeap` / `extractMin` / `updateHeap` operations leaves
    an array in which each non-root index is at least its parent. -/
theorem heap_invariant_preserved (h : MinHeap) (ops : List HeapOp) (hh : IsHeap h.arr) :
    IsHeap (applyOps h ops).arr := by
  induction ops generalizing h with
  | nil => exact hh
  | cons op rest ih =>
    have hstep : IsHeap (applyOp h op).arr := by
      cases op with
      | insert sid x => exact insertHeap_isHeap sid x hh
      | extract =>
        simp only [applyOp]
        cases he : extractMin h with
        | none => exact hh
        | some p =>
          obtain ⟨m, h'⟩ := p
          exact (extractMin_spec hh he).2.2
      | update sid x => exact updateHeap_isHeap sid x hh
    exact ih (applyOp h op) hstep

/-- Witness for C2: a concrete operation sequence from the empty heap. -/
theorem heap_invariant_preserved_witness :
    IsHeap (applyOps ⟨[], 3⟩
      [HeapOp.insert 0 5, HeapOp.insert 1 3, HeapOp.insert 2 4,
        HeapOp.extract, HeapOp.update 0 1]).arr :=
  heap_invariant_preserved ⟨[], 3⟩ _ (by
    intro i hi hlen
    simp at hlen)

/-- C3: on a non-empty heap satisfying the min-heap property, `extractMin`
    returns an entry of minimal load, the remaining heap holds exactly the
    other entries, and the min-heap property still holds. -/
theorem extractMin_correct (h : MinHeap) (m : HeapNode) (h' : MinHeap)
    (hh : IsHeap h.arr) (he : extractMin h = some (m, h')) :
    (∀ e ∈ h.arr, m.load ≤ e.load) ∧
    List.Perm (m :: h'.arr) h.arr ∧
    IsHeap h'.arr :=
  extractMin_spec hh he

/-- Witness for C3 at a concrete three-entry heap. -/
theorem extractMin_correct_witness :
    (∀ e ∈ (⟨[⟨1, 3⟩, ⟨0, 5⟩, ⟨2, 4⟩], 3⟩ : MinHeap).arr,
      (⟨1, (3 : ℚ)⟩ : HeapNode).load ≤ e.load) ∧
    List.Perm ((⟨1, 3⟩ : HeapNode) :: (⟨[⟨2, 4⟩, ⟨0, 5⟩], 3⟩ : MinHeap).arr)
      (⟨[⟨1, 3⟩, ⟨0, 5⟩, ⟨2, 4⟩], 3⟩ : MinHeap).arr ∧
    IsHeap (⟨[⟨2, 4⟩, ⟨0, 5⟩], 3⟩ : MinHeap).arr :=
  extractMin_correct ⟨[⟨1, 3⟩, ⟨0, 5⟩, ⟨2, 4⟩], 3⟩ ⟨1, 3⟩ ⟨[⟨2, 4⟩, ⟨0, 5⟩], 3⟩
    (by
      intro i hi hlen
      simp only [List.length_cons, List.length_nil] at hlen
      interval_cases i <;> norm_num [ld, dNode])
    (by
      rw [extractMin]
      norm_num [dNode]
      rw [heapifyDown]
      norm_num [childMin, swapL, ld, dNode])

/-- C1: for a heap in sync with the registry and satisfying the min-heap
    property, the server chosen by `extractMin` for the next task carries
    its registry load, that load is minimal over all servers, and it equals
    the load found by the `findLeastLoadedServer` linear scan. -/
theorem selected_server_has_min_load (heap : MinHeap) (ss : List Server)
    (m : HeapNode) (h' : MinHeap)
    (hh : IsHeap heap.arr) (hs : Sync heap ss) (he : extractMin heap = some (m, h')) :
    m.load = loadAt ss m.serverId ∧
    (∀ j, j < ss.length → loadAt ss m.serverId ≤ loadAt ss j) ∧
    loadAt ss m.serverId = loadAt ss (findLeastLoadedServer ss) := by
  obtain ⟨hmin, hperm, -⟩ := extractMin_spec hh he
  have hmem : m ∈ heap.arr := hperm.mem_iff.mp (List.mem_cons_self m _)
  obtain ⟨hmid, hmload⟩ := hs.1 m hmem
  have hminload : ∀ j, j < ss.length → loadAt ss m.serverId ≤ loadAt ss j := by
    intro j hj
    obtain ⟨e, hemem, heid⟩ := hs.2 j hj
    obtain ⟨-, heload⟩ := hs.1 e hemem
    have hle := hmin e hemem
    rw [hmload, heload, heid] at hle
    exact hle
  have hne : ss ≠ [] := by
    intro hc
    rw [hc] at hmid
    simp at hmid
  obtain ⟨hli, hleast⟩ := findLeastLoadedServer_spec ss hne
  exact ⟨hmload, hminload, le_antisymm (hminload _ hli) (hleast _ hmid)⟩

/-- Witness for C1 at a concrete synced heap and registry. -/
theorem selected_server_has_min_load_witness :
    (⟨1, (0 : ℚ)⟩ : HeapNode).load = loadAt demoServers (⟨1, (0 : ℚ)⟩ : HeapNode).serverId ∧
    (∀ j, j < demoServers.length →
      loadAt demoServers (⟨1, (0 : ℚ)⟩ : HeapNode).serverId ≤ loadAt demoServers j) ∧
    loadAt demoServers (⟨1, (0 : ℚ)⟩ : HeapNode).serverId
      = loadAt demoServers (findLeastLoadedServer demoServers) :=
  selected_server_has_min_load demoHeap demoServers ⟨1, 0⟩ ⟨[⟨2, 0⟩, ⟨0, 10⟩], 3⟩
    (by
      intro i hi hlen
      simp only [demoHeap, List.length_cons, List.length_nil] at hlen
      interval_cases i <;> norm_num [demoHeap, ld, dNode])
    (by
      constructor
      · intro e he
        simp only [demoHeap, List.mem_cons, List.not_mem_nil, or_false] at he
        rcases he with rfl | rfl | rfl <;>
          exact ⟨by norm_num [demoServers], by norm_num [loadAt, demoServers, dServer]⟩
      · intro i hi
        simp only [demoServers, List.length_cons, List.length_nil] at hi
        interval_cases i
        · exact ⟨⟨0, 10⟩, by norm_num [demoHeap], rfl⟩
        · exact ⟨⟨1, 0⟩, by norm_num [demoHeap], rfl⟩
        · exact ⟨⟨2, 0⟩, by norm_num [demoHeap], rfl⟩)
    (by
      rw [extractMin]
      norm_num [demoHeap, dNode]
      rw [heapifyDown]
      norm_num [childMin, swapL, ld, dNode])

/-- Witness for C4 at the 90%/60% fleet with threshold 20. -/
theorem rebalance_conserves_load_witness :
    loadAt (rebalanceLoads serversFire 20 heapFire).1 (findMostLoadedServer serversFire)
        = loadAt serversFire (findMostLoadedServer serversFire)
          - (loadAt serversFire (findMostLoadedServer serversFire)
             - calculateAverageLoad serversFire) * (1 / 2) ∧
    loadAt (rebalanceLoads serversFire 20 heapFire).1 (findLeastLoadedServer serversFire)
        = loadAt serversFire (findLeastLoadedServer serversFire)
          + (loadAt serversFire (findMostLoadedServer serversFire)
             - calculateAverageLoad serversFire) * (1 / 2) ∧
    ((rebalanceLoads serversFire 20 heapFire).1.map Server.currentLoad).sum
        = (serversFire.map Server.currentLoad).sum :=
  rebalance_conserves_load serversFire 20 heapFire (by simp [serversFire])
    (by rw [imbalance_serversFire]; norm_num)

/-- Witness for C5's universally quantified no-fire conjunct. -/
theorem rebalance_trigger_condition_witness :
    rebalanceLoads serversNoFire 20 heapNoFire = (serversNoFire, heapNoFire) :=
  rebalance_trigger_condition.1 serversNoFire 20 heapNoFire
    (by rw [imbalance_serversNoFire]; norm_num)

/-- Witness for C9 at concrete fleets. -/
theorem loads_stay_nonneg_witness :
    (∀ s ∈ (assignTask [⟨0, 100, 0⟩] ⟨[⟨0, 0⟩], 1⟩ 10).1, 0 ≤ s.currentLoad) ∧
    (0 ≤ (loadAt serversFire (findMostLoadedServer serversFire)
        - calculateAverageLoad serversFire) * (1 / 2) ∧
      (loadAt serversFire (findMostLoadedServer serversFire)
        - calculateAverageLoad serversFire) * (1 / 2)
          ≤ loadAt serversFire (findMostLoadedServer serversFire) ∧
      ∀ s ∈ (rebalanceLoads serversFire 20 heapFire).1, 0 ≤ s.currentLoad) :=
  ⟨loads_stay_nonneg.1 [⟨0, 100, 0⟩] ⟨[⟨0, 0⟩], 1⟩ 10 (by norm_num)
      (by
        intro s hs
        simp only [List.mem_cons, List.not_mem_nil, or_false] at hs
        rw [hs]),
    loads_stay_nonneg.2 serversFire 20 heapFire (by simp [serversFire])
      (by
        intro s hs
        simp only [serversFire, List.mem_cons, List.not_mem_nil, or_false] at hs
        rcases hs with rfl | rfl <;> norm_num)⟩

theorem scenarioHeap_eval : scenarioHeap = ⟨[⟨0, 0⟩, ⟨1, 0⟩, ⟨2, 0⟩], 3⟩ := by
  have h1 : insertHeap (createMinHeap 3) 0 0 = ⟨[⟨0, 0⟩], 3⟩ := by
    rw [createMinHeap, insertHeap]
    norm_num
    rw [heapifyUp]
    norm_num
  have h2 : insertHeap ⟨[⟨0, 0⟩], 3⟩ 1 0 = ⟨[⟨0, 0⟩, ⟨1, 0⟩], 3⟩ := by
    rw [insertHeap]
    norm_num
    rw [heapifyUp]
    norm_num [ld, dNode, swapL]
  have h3 : insertHeap ⟨[⟨0, 0⟩, ⟨1, 0⟩], 3⟩ 2 0 = ⟨[⟨0, 0⟩, ⟨1, 0⟩, ⟨2, 0⟩], 3⟩ := by
    rw [insertHeap]
    norm_num
    rw [heapifyUp]
    norm_num [ld, dNode, swapL]
  rw [scenarioHeap, h1, h2, h3]

theorem scenario_assign1 :
    assignTask scenarioServers ⟨[⟨0, 0⟩, ⟨1, 0⟩, ⟨2, 0⟩], 3⟩ 10
      = ([⟨0, 100, 10⟩, ⟨1, 100, 0⟩, ⟨2, 100, 0⟩], ⟨[⟨2, 0⟩, ⟨1, 0⟩, ⟨0, 10⟩], 3⟩) := by
  have he : extractMin ⟨[⟨0, 0⟩, ⟨1, 0⟩, ⟨2, 0⟩], 3⟩
      = some (⟨0, 0⟩, ⟨[⟨2, 0⟩, ⟨1, 0⟩], 3⟩) := by
    rw [extractMin]
    norm_num [dNode]
    rw [heapifyDown]
    norm_num [childMin, swapL, ld, dNode]
  rw [assignTask, he]
  norm_num [modifyLoad, loadAt, scenarioServers, dServer]
  rw [insertHeap]
  norm_num
  rw [heapifyUp]
  norm_num [ld, dNode, swapL]

theorem scenario_assign2 :
    assignTask [⟨0, 100, 10⟩, ⟨1, 100, 0⟩, ⟨2, 100, 0⟩] ⟨[⟨2, 0⟩, ⟨1, 0⟩, ⟨0, 10⟩], 3⟩ 10
      = ([⟨0, 100, 10⟩, ⟨1, 100, 0⟩, ⟨2, 100, 10⟩], ⟨[⟨1, 0⟩, ⟨0, 10⟩, ⟨2, 10⟩], 3⟩) := by
  have he : extractMin ⟨[⟨2, 0⟩, ⟨1, 0⟩, ⟨0, 10⟩], 3⟩
      = some (⟨2, 0⟩, ⟨[⟨1, 0⟩, ⟨0, 10⟩], 3⟩) := by
    rw [extractMin]
    norm_num [dNode]
    rw [heapifyDown]
    norm_num [childMin, swapL, ld, dNode]
    rw [heapifyDown]
    norm_num [childMin, swapL, ld, dNode]
  rw [assignTask, he]
  norm_num [modifyLoad, loadAt, dServer]
  rw [insertHeap]
  norm_num
  rw [heapifyUp]
  norm_num [ld, dNode, swapL]

theorem scenario_assign3 :
    assignTask [⟨0, 100, 10⟩, ⟨1, 100, 0⟩, ⟨2, 100, 10⟩] ⟨[⟨1, 0⟩, ⟨0, 10⟩, ⟨2, 10⟩], 3⟩ 10
      = ([⟨0, 100, 10⟩, ⟨1, 100, 10⟩, ⟨2, 100, 10⟩], ⟨[⟨2, 10⟩, ⟨0, 10⟩, ⟨1, 10⟩], 3⟩) := by
  have he : extractMin ⟨[⟨1, 0⟩, ⟨0, 10⟩, ⟨2, 10⟩], 3⟩
      = some (⟨1, 0⟩, ⟨[⟨2, 10⟩, ⟨0, 10⟩], 3⟩) := by
    rw [extractMin]
    norm_num [dNode]
    rw [heapifyDown]
    norm_num [childMin, swapL, ld, dNode]
  rw [assignTask, he]
  norm_num [modifyLoad, loadAt, dServer]
  rw [insertHeap]
  norm_num
  rw [heapifyUp]
  norm_num [ld, dNode, swapL]

theorem scenarioRun_eval :
    scenarioRun = ([⟨0, 100, 10⟩, ⟨1, 100, 10⟩, ⟨2, 100, 10⟩],
      ⟨[⟨2, 10⟩, ⟨0, 10⟩, ⟨1, 10⟩], 3⟩) := by
  rw [scenarioRun, scenarioHeap_eval]
  rw [runTasks, scenario_assign1]
  norm_num
  rw [runTasks, scenario_assign2]
  norm_num
  rw [runTasks, scenario_assign3]
  norm_num
  rw [runTasks]

/-- C7 counterexample: in the 3×100-capacity, 3×load-10 scenario the final
    loads are [10, 10, 10]; they do not form a permutation of [10, 0, 0]
    (whose sum is 10, not 30). -/
theorem scenario_loads_not_perm :
    scenarioRun.1.map Server.currentLoad = [10, 10, 10] ∧
    ¬ List.Perm (scenarioRun.1.map Server.currentLoad) [10, 0, 0] := by
  have h := scenarioRun_eval
  constructor
  · rw [h]
    norm_num
  · rw [h]
    simp only [List.map_cons, List.map_nil]
    intro hperm
    have hsum := hperm.sum_eq
    norm_num at hsum

/-- C7 (amended): in the end-to-end scenario each server receives exactly
    one task — the final loads are [10, 10, 10], summing to 30, and every
    server's load percentage is `load / 100 × 100 = 10`. -/
theorem scenario_each_server_one_task :
    scenarioRun.1 = [⟨0, 100, 10⟩, ⟨1, 100, 10⟩, ⟨2, 100, 10⟩] ∧
    (scenarioRun.1.map Server.currentLoad).sum = 30 ∧
    ∀ s ∈ scenarioRun.1,
      getLoadPercentage s = s.currentLoad / 100 * 100 ∧ getLoadPercentage s = 10 := by
  have h := scenarioRun_eval
  have h1 : scenarioRun.1 = [⟨0, 100, 10⟩, ⟨1, 100, 10⟩, ⟨2, 100, 10⟩] := by
    rw [h]
  refine ⟨h1, ?_, ?_⟩
  · rw [h1]
    norm_num
  · rw [h1]
    intro s hs
    simp only [List.mem_cons, List.not_mem_nil, or_false] at hs
    rcases hs with rfl | rfl | rfl <;>
      exact ⟨by norm_num [getLoadPercentage], by norm_num [getLoadPercentage]⟩

/-- Witness for C7's amended theorem at the first scenario server. -/
theorem scenario_each_server_one_task_witness :
    getLoadPercentage ⟨0, 100, 10⟩ = (⟨0, 100, 10⟩ : Server).currentLoad / 100 * 100 ∧
    getLoadPercentage ⟨0, 100, 10⟩ = 10 :=
  scenario_each_server_one_task.2.2 ⟨0, 100, 10⟩ (by rw [scenarioRun_eval]; simp)

/-! ### Claim C8: interactive edge validation -/

/-- C8: the interactive `addEdge` rejects out-of-range endpoints,
    self-edges and duplicate ordered pairs, leaving the graph unchanged,
    and otherwise inserts the destination at the head of the source's
    adjacency list; concretely on a 6-server graph, (2,2) is rejected, a
    second (2,3) is rejected, and (2,99) is rejected as out-of-range. -/
theorem addEdge_validation :
    (∀ (g : Graph) (src dest : ℤ),
        src < 0 ∨ src ≥ g.numServers ∨ dest < 0 ∨ dest ≥ g.numServers →
        addEdge g src dest = (g, false)) ∧
    (∀ (g : Graph) (src dest : ℤ),
        ¬(src < 0 ∨ src ≥ g.numServers ∨ dest < 0 ∨ dest ≥ g.numServers) →
        src = dest → addEdge g src dest = (g, false)) ∧
    (∀ (g : Graph) (src dest : ℤ),
        ¬(src < 0 ∨ src ≥ g.numServers ∨ dest < 0 ∨ dest ≥ g.numServers) →
        src ≠ dest → edgeExists g src dest = true → addEdge g src dest = (g, false)) ∧
    (∀ (g : Graph) (src dest : ℤ), (g.adjList.length : ℤ) = g.numServers →
        ¬(src < 0 ∨ src ≥ g.numServers ∨ dest < 0 ∨ dest ≥ g.numServers) →
        src ≠ dest → edgeExists g src dest = false →
        (addEdge g src dest).2 = true ∧
        (addEdge g src dest).1.adjList.getD src.toNat []
          = dest :: g.adjList.getD src.toNat [] ∧
        (∀ k, k ≠ src.toNat →
          (addEdge g src dest).1.adjList.getD k [] = g.adjList.getD k [])) ∧
    addEdge (createGraph 6) 2 2 = (createGraph 6, false) ∧
    (addEdge (createGraph 6) 2 3).2 = true ∧
    addEdge (addEdge (createGraph 6) 2 3).1 2 3
      = ((addEdge (createGraph 6) 2 3).1, false) ∧
    addEdge (createGraph 6) 2 99 = (createGraph 6, false) := by
  have hadd23 : addEdge (createGraph 6) 2 3
      = (⟨6, [[], [], [3], [], [], []]⟩, true) := by
    norm_num [addEdge, createGraph, edgeExists, List.replicate]
    simp only [show Int.toNat 2 = 2 from rfl]
    norm_num
  refine ⟨?_, ?_, ?_, ?_, ?_, ?_, ?_, ?_⟩
  · intro g src dest h
    rw [addEdge, if_pos h]
  · intro g src dest hr hself
    rw [addEdge, if_neg hr, if_pos hself]
  · intro g src dest hr hself hex
    rw [addEdge, if_neg hr, if_neg hself, if_pos hex]
  · intro g src dest hlen hr hself hex
    push_neg at hr
    obtain ⟨hs0, hsn, hd0, hdn⟩ := hr
    have hsrc : src.toNat < g.adjList.length := by
      have h1 : (src.toNat : ℤ) = src := Int.toNat_of_nonneg hs0
      omega
    rw [addEdge, if_neg (by push_neg; exact ⟨hs0, hsn, hd0, hdn⟩),
      if_neg hself, if_neg (by rw [hex]; exact Bool.false_ne_true)]
    refine ⟨rfl, ?_, ?_⟩
    · exact getD_set_self _ _ _ _ hsrc
    · intro k hk
      exact getD_set_ne _ _ _ (fun hc => hk hc.symm)
  · norm_num [addEdge, createGraph]
  · rw [hadd23]
  · rw [hadd23]
    norm_num [addEdge, edgeExists]
    simp only [show Int.toNat 2 = 2 from rfl]
    norm_num
  · norm_num [addEdge, createGraph]

/-- Witness for C8's universally quantified rejection conjunct. -/
theorem addEdge_validation_witness :
    addEdge (createGraph 6) (-1) 0 = (createGraph 6, false) :=
  addEdge_validation.1 (createGraph 6) (-1) 0 (by norm_num [createGraph])

/-! ### Claim C10: the yes/no prompt -/

/-- C10: the yes/no prompt decides on the first character of the line
    only — `Y`/`y`/`N`/`n` are accepted (canonicalized) with the rest of
    the line discarded, any other first character causes a re-prompt on the
    remaining input; in particular an input line starting with "yes"
    yields `Y` with the rest of the line dropped. -/
theorem yes_no_prompt_first_char :
    (∀ (c : Char) (cs : List Char), c = 'Y' ∨ c = 'y' →
        getYesNoInput (c :: cs) = some ('Y', dropLine cs)) ∧
    (∀ (c : Char) (cs : List Char), ¬(c = 'Y' ∨ c = 'y') → (c = 'N' ∨ c = 'n') →
        getYesNoInput (c :: cs) = some ('N', dropLine cs)) ∧
    (∀ (c : Char) (cs : List Char), ¬(c = 'Y' ∨ c = 'y') → ¬(c = 'N' ∨ c = 'n') →
        getYesNoInput (c :: cs) = getYesNoInput (dropLine cs)) ∧
    getYesNoInput ['y', 'e', 's', '\n', 'o', 'k'] = some ('Y', ['o', 'k']) := by
  refine ⟨?_, ?_, ?_, ?_⟩
  · intro c cs h
    rw [getYesNoInput]
    simp only [if_pos h, if_neg (by decide : ¬('Y' : Char) = '?')]
  · intro c cs hny h
    rw [getYesNoInput]
    simp only [if_neg hny, if_pos h, if_neg (by decide : ¬('N' : Char) = '?')]
  · intro c cs hny hnn
    rw [getYesNoInput]
    simp only [if_neg hny, if_neg hnn, if_pos rfl, if_true]
  · rw [getYesNoInput]
    simp [dropLine]

/-- Witness for C10 at concrete inputs. -/
theorem yes_no_prompt_first_char_witness :
    getYesNoInput ('q' :: ['\n', 'N', '\n'])
      = getYesNoInput (dropLine ['\n', 'N', '\n']) :=
  yes_no_prompt_first_char.2.2.1 'q' ['\n', 'N', '\n'] (by decide) (by decide)

end LoadBalancer
